import Mathlib

/-!
Verification of the `market_radar` fetch pipeline
(`src/market_radar_cli/hh_client.py`).

The development shallowly embeds the Python module:

* the text normalizer `clean_html` (BeautifulSoup tag stripping with
  `<br>`/`<p>` handling, the `re.sub(r"\n\s*\n", "\n\n", ...)` newline
  collapse, and `str.strip()`);
* the slug construction of `save_to_csv`
  (`re.sub(r"[^a-z0-9]+", "-", query.lower()).strip("-")`);
* the retry loops of `fetch_vacancies_list` / `fetch_vacancy_detail`
  (3 attempts, linear backoff, final `HHAPIError`);
* the pagination orchestrator `fetch_all_vacancies`, over an explicit
  environment supplying the remote listing and detail responses as JSON
  values, with Python dynamic-typing failures (`TypeError` /
  `AttributeError`) modelled explicitly.

Modelling conventions: strings are `List Char` at the ASCII level
(Python's `str.lower`, `\s` and `str.strip` act on Unicode, but every
property below is stated and exercised on ASCII data); floats do not
occur in the modelled values; the HTML parser is modelled for the tag
shapes the code manipulates (start/end/void tags delimited by `<`/`>`,
entities left undecoded).
-/

/-- The ASCII whitespace class of Python's `\s` and `str.strip()`:
space, tab, newline, carriage return, vertical tab, form feed. -/
def isPySpace (c : Char) : Bool :=
  c = ' ' || c = '\t' || c = '\n' || c = '\r' || c = '\x0b' || c = '\x0c'

/-- Characters kept by the slug regex class `[a-z0-9]`. -/
def isSlugAlnum (c : Char) : Bool :=
  (97 ≤ c.toNat && c.toNat ≤ 122) || (48 ≤ c.toNat && c.toNat ≤ 57)

/-- ASCII lower-casing, as `str.lower()` acts on ASCII letters. -/
def lowerAscii (c : Char) : Char :=
  if 65 ≤ c.toNat ∧ c.toNat ≤ 90 then Char.ofNat (c.toNat + 32) else c

/-- Python `str.strip(chars)`: drop the characters satisfying `p` from
both ends of the string. -/
def dropEnds (p : Char → Bool) (l : List Char) : List Char :=
  ((l.dropWhile p).reverse.dropWhile p).reverse

/-- `str.strip()` — strip whitespace from both ends (line 119). -/
def pyStrip (l : List Char) : List Char := dropEnds isPySpace l

/-- `str.strip("-")` — strip dashes from both ends (line 197). -/
def stripDash (l : List Char) : List Char := dropEnds (fun c => c = '-') l

/-! ### The tag stripper

`clean_html` parses the input with BeautifulSoup, replaces every
`<br>` with a newline, replaces every `<p>` element by a newline, its
text, and a newline, and takes the document text (lines 107–115).  On
the flat tag streams the code manipulates this amounts to: drop every
`<...>` group, emitting a newline for `br` tags and for the opening and
closing tags of `p` elements.  A `<` that does not open a tag (not
followed by a letter, `/`, `!` or `?`) is literal text, as in
`html.parser`. -/

/-- Scanner mode of the tag stripper: in text, or inside `<...>` with
the reversed tag characters accumulated. -/
inductive TMode where
  | text : TMode
  | tag : List Char → TMode

/-- Text emitted for one tag body (the characters between `<` and `>`):
a newline for `br` and `p` tags (opening or closing), nothing else. -/
def tagEmit (tagChars : List Char) : List Char :=
  let body := if tagChars.head? = some '/' then tagChars.tail else tagChars
  let name := (body.takeWhile Char.isAlpha).map lowerAscii
  if name = ['b', 'r'] then ['\n']
  else if name = ['p'] then ['\n']
  else []

/-- Is this character allowed to start a tag after `<`? -/
def tagStart (c : Char) : Bool :=
  c.isAlpha || c = '/' || c = '!' || c = '?'

/-- One pass of tag stripping with `br`/`p` replacement. -/
def tagRun : TMode → List Char → List Char
  | .text, [] => []
  | .tag _, [] => []
  | .text, c :: rest =>
    if c = '<' then
      match rest with
      | [] => ['<']
      | d :: _ => if tagStart d then tagRun (.tag []) rest
                  else '<' :: tagRun .text rest
    else c :: tagRun .text rest
  | .tag acc, c :: rest =>
    if c = '>' then tagEmit acc.reverse ++ tagRun .text rest
    else tagRun (.tag (c :: acc)) rest

/-! ### The newline collapse

`re.sub(r"\n\s*\n", "\n\n", text)` (line 118): leftmost, non-overlapping
matches; `\s*` is greedy, so a match runs from a newline to the last
newline reachable from it through whitespace, and is replaced by two
newlines.  The scanner below implements exactly that: `scan` is outside
any candidate match; `after1 buf` has read one newline and then the
(reversed) whitespace `buf` containing no further newline; `afterM buf`
is inside a match that already emitted `"\n\n"`, absorbing the rest of
the whitespace run up to its last newline, with `buf` the (reversed)
non-newline whitespace read since the last newline. -/

/-- Scanner mode for the newline-collapsing substitution. -/
inductive NlMode where
  | scan : NlMode
  | after1 : List Char → NlMode
  | afterM : List Char → NlMode

/-- The `re.sub(r"\n\s*\n", "\n\n", ·)` scanner. -/
def nlRun : NlMode → List Char → List Char
  | .scan, [] => []
  | .after1 buf, [] => '\n' :: buf.reverse
  | .afterM buf, [] => buf.reverse
  | .scan, c :: rest =>
    if c = '\n' then nlRun (.after1 []) rest
    else c :: nlRun .scan rest
  | .after1 buf, c :: rest =>
    if c = '\n' then '\n' :: '\n' :: nlRun (.afterM []) rest
    else if isPySpace c then nlRun (.after1 (c :: buf)) rest
    else '\n' :: (buf.reverse ++ c :: nlRun .scan rest)
  | .afterM buf, c :: rest =>
    if c = '\n' then nlRun (.afterM []) rest
    else if isPySpace c then nlRun (.afterM (c :: buf)) rest
    else buf.reverse ++ c :: nlRun .scan rest

/-- `re.sub(r"\n\s*\n", "\n\n", ·)` on a character list. -/
def subNl (l : List Char) : List Char := nlRun .scan l

/-- `clean_html` (lines 94–121): `None` or empty input yields `""`;
otherwise strip tags (with the `br`/`p` replacements), collapse newline
runs, and strip outer whitespace. -/
def clean_html (html_text : Option String) : String :=
  match html_text with
  | none => ""
  | some s =>
    if s = "" then ""
    else String.mk (pyStrip (subNl (tagRun .text s.data)))

/-! ### The slug

`re.sub(r"[^a-z0-9]+", "-", query.lower()).strip("-")` (line 197):
every maximal run of characters outside `[a-z0-9]` becomes one dash,
then outer dashes are stripped.  The Boolean flag records whether the
scanner is inside a non-alphanumeric run whose dash is already
emitted. -/

/-- The `re.sub(r"[^a-z0-9]+", "-", ·)` scanner. -/
def slugRun : Bool → List Char → List Char
  | _, [] => []
  | skipping, c :: rest =>
    if isSlugAlnum c then c :: slugRun false rest
    else if skipping then slugRun true rest
    else '-' :: slugRun true rest

/-- The slug used in the CSV filename (`save_to_csv`, line 197). -/
def slug (query : String) : String :=
  String.mk (stripDash (slugRun false (query.data.map lowerAscii)))

/-! ### The transport retry loop

`fetch_vacancies_list` (lines 52–63) and `fetch_vacancy_detail`
(lines 80–91) run the same loop: `for attempt in range(MAX_RETRIES)`,
returning on success, raising `HHAPIError` with a message built from the
last underlying error on the final attempt, and otherwise sleeping
`RETRY_DELAY * (attempt + 1)` before retrying.  The per-attempt HTTP
outcome is supplied by the environment as `Except String Json`; the
model records, alongside the result, the sleeps performed and the number
of attempts made. -/

/-- The JSON values produced by `response.json()` and handled by the
module.  Floats and booleans do not occur in the modelled responses. -/
inductive Json where
  | null : Json
  | int : Int → Json
  | str : String → Json
  | arr : List Json → Json
  | obj : List (String × Json) → Json

/-- `MAX_RETRIES` (line 19). -/
def MAX_RETRIES : Nat := 3

/-- `RETRY_DELAY` (line 20); `1.0` is exact, modelled as a rational. -/
def RETRY_DELAY : ℚ := 1

/-- `HH_API_BASE` (line 15). -/
def HH_API_BASE : String := "https://api.hh.ru"

/-- The URL requested by `fetch_vacancies_list` (line 43). -/
def listUrl : String := HH_API_BASE ++ "/vacancies"

/-- The URL requested by `fetch_vacancy_detail` (line 78). -/
def detailUrl (vid : String) : String := HH_API_BASE ++ "/vacancies/" ++ vid

/-- The `HHAPIError` message of `fetch_vacancies_list` (line 59). -/
def listFailMsg (e : String) : String :=
  "Failed to fetch vacancies list after " ++ toString MAX_RETRIES ++ " attempts: " ++ e

/-- The `HHAPIError` message of `fetch_vacancy_detail` (line 87). -/
def detailFailMsg (vid e : String) : String :=
  "Failed to fetch vacancy " ++ vid ++ ": " ++ e

/-- Outcome of one `fetch_vacancies_list` / `fetch_vacancy_detail`
call: the returned JSON or the raised error message, the sleeps
performed between attempts, and the number of attempts made. -/
structure CallResult where
  result : Except String Json
  sleeps : List ℚ
  attempts : Nat

/-- The shared retry loop, running from attempt index `attempt` with
`fuel` loop iterations left (`fuel = MAX_RETRIES - attempt`); `mkMsg`
builds the final `HHAPIError` message from the last underlying error.
The fuel-exhausted branch is the dead `raise` after the loop
(lines 63 and 91). -/
def retryGo (outcomes : Nat → Except String Json) (mkMsg : String → String) :
    Nat → Nat → CallResult
  | _, 0 => ⟨.error "Unexpected error", [], 0⟩
  | attempt, fuel + 1 =>
    match outcomes attempt with
    | .ok v => ⟨.ok v, [], 1⟩
    | .error e =>
      if attempt = MAX_RETRIES - 1 then ⟨.error (mkMsg e), [], 1⟩
      else
        let r := retryGo outcomes mkMsg (attempt + 1) fuel
        ⟨r.result, RETRY_DELAY * ((attempt : ℚ) + 1) :: r.sleeps, r.attempts + 1⟩

/-- `fetch_vacancies_list` (lines 52–63) over the per-attempt HTTP
outcomes. -/
def fetch_vacancies_list (outcomes : Nat → Except String Json) : CallResult :=
  retryGo outcomes listFailMsg 0 MAX_RETRIES

/-- `fetch_vacancy_detail` (lines 80–91) over the per-attempt HTTP
outcomes. -/
def fetch_vacancy_detail (vid : String) (outcomes : Nat → Except String Json) :
    CallResult :=
  retryGo outcomes (detailFailMsg vid) 0 MAX_RETRIES

/-! ### The orchestrator

`fetch_all_vacancies` (lines 124–182), over an environment giving the
listing response for each page index in order (a finite list: pages past
the end are transport failures, which the orchestrator propagates) and
the detail response for each vacancy id.  Python's dynamic failures are
modelled: `.get` on a non-dict raises `AttributeError`, iterating a
non-iterable raises `TypeError`, and `int >= other` raises `TypeError`
unless `other` is an int.  The model also records the listing requests
made (page index and `per_page`) and the ids whose detail fetch was
skipped with a logged warning. -/

/-- Python exceptions that can escape the orchestrator. -/
inductive PyErr where
  | typeError : PyErr
  | attributeError : PyErr
  | hhapiError : String → PyErr

/-- Python truthiness of a JSON value. -/
def pyTruthy : Json → Bool
  | .null => false
  | .int n => n ≠ 0
  | .str s => s ≠ ""
  | .arr xs => !xs.isEmpty
  | .obj fs => !fs.isEmpty

/-- `dict.get`: first binding of the key, if any. -/
def jLookup : List (String × Json) → String → Option Json
  | [], _ => none
  | (k, v) :: rest, key => if k = key then some v else jLookup rest key

/-- Python `for x in v`: lists iterate their elements, strings their
characters, dicts their keys; other values raise `TypeError`. -/
def pyIter : Json → Except PyErr (List Json)
  | .arr xs => .ok xs
  | .str s => .ok (s.data.map fun c => Json.str (String.mk [c]))
  | .obj fs => .ok (fs.map fun kv => Json.str kv.1)
  | _ => .error .typeError

/-- Python `a >= b` for an int `a` and a JSON value `b` (line 175):
int comparison, or `TypeError` for non-int shapes. -/
def pyGeInt (a : Int) : Json → Except PyErr Bool
  | .int b => .ok (decide (b ≤ a))
  | _ => .error .typeError

/-- The `pages` extraction of `fetch_all_vacancies` (lines 172–174):
`data.get("pages", 1)`, then one more `.get("pages", 1)` if the value
is a dict.  Any other shape is passed through unchanged (and later
crashes the `>=` comparison unless it is an int). -/
def extractPages (fields : List (String × Json)) : Json :=
  match jLookup fields "pages" with
  | none => Json.int 1
  | some (Json.obj tf) => (jLookup tf "pages").getD (Json.int 1)
  | some v => v

/-- `clean_html` applied to an arbitrary JSON value, as the orchestrator
does at line 163: `None` and falsy values hit the `if not html_text`
guard; a string runs the pipeline; a truthy non-string makes
`BeautifulSoup` raise `TypeError`. -/
def pyCleanHtml : Json → Except PyErr String
  | .null => .ok (clean_html none)
  | .str s => .ok (clean_html (some s))
  | v => if pyTruthy v then .error .typeError else .ok ""

/-- One accumulated vacancy record (lines 160–164). -/
structure Vacancy where
  id : Json
  title : Json
  description : String

/-- The remote environment: listing responses per page index (the call
for a page past the end of the list fails at the transport level), and
detail responses per vacancy id. -/
structure Env where
  listing : List (Except String Json)
  detail : Json → Except String Json

/-- The inner `for item in items` loop (lines 150–168): stop when the
limit is reached; skip items without a truthy id; fetch the detail,
catching `HHAPIError` by logging the id and skipping; append the record
otherwise.  Returns the warned ids and the resulting accumulator. -/
def processItems (env : Env) (limit : Nat) :
    List Json → List Vacancy → List Json × Except PyErr (List Vacancy)
  | [], acc => ([], .ok acc)
  | item :: rest, acc =>
    if limit ≤ acc.length then ([], .ok acc)
    else
      match item with
      | .obj f =>
        if pyTruthy ((jLookup f "id").getD .null) then
          match env.detail ((jLookup f "id").getD .null) with
          | .error _ =>
            ((jLookup f "id").getD .null :: (processItems env limit rest acc).1,
              (processItems env limit rest acc).2)
          | .ok detail =>
            match detail with
            | .obj df =>
              match pyCleanHtml ((jLookup df "description").getD .null) with
              | .error e => ([], .error e)
              | .ok desc =>
                processItems env limit rest
                  (acc ++ [⟨(jLookup f "id").getD .null,
                    (jLookup df "name").getD (.str ""), desc⟩])
            | .null => ([], .error .attributeError)
            | .int _ => ([], .error .attributeError)
            | .str _ => ([], .error .attributeError)
            | .arr _ => ([], .error .attributeError)
        else processItems env limit rest acc
      | .null => ([], .error .attributeError)
      | .int _ => ([], .error .attributeError)
      | .str _ => ([], .error .attributeError)
      | .arr _ => ([], .error .attributeError)

/-- Outcome of one `fetch_all_vacancies` run: the listing requests made
(page index, `per_page`), the ids skipped with a warning, and the result
(the accumulated records, or the Python exception that escaped). -/
structure RunResult where
  calls : List (Nat × Nat)
  warns : List Json
  result : Except PyErr (List Vacancy)

/-- The `while len(vacancies) < limit` loop of `fetch_all_vacancies`
(lines 142–179), walking the remaining listing responses with the
current page index and accumulator. -/
def fetchLoop (env : Env) (limit : Nat) :
    List (Except String Json) → Nat → List Vacancy → RunResult
  | [], page, acc =>
    if limit ≤ acc.length then ⟨[], [], .ok acc⟩
    else ⟨[(page, min limit 100)], [], .error (.hhapiError (listFailMsg "transport"))⟩
  | resp :: rest, page, acc =>
    if limit ≤ acc.length then ⟨[], [], .ok acc⟩
    else
      match resp with
      | .error e => ⟨[(page, min limit 100)], [], .error (.hhapiError (listFailMsg e))⟩
      | .ok data =>
        match data with
        | .obj fields =>
          if !pyTruthy ((jLookup fields "items").getD (.arr [])) then
            ⟨[(page, min limit 100)], [], .ok acc⟩
          else
            match pyIter ((jLookup fields "items").getD (.arr [])) with
            | .error e => ⟨[(page, min limit 100)], [], .error e⟩
            | .ok itemList =>
              match processItems env limit itemList acc with
              | (warns, .error e) => ⟨[(page, min limit 100)], warns, .error e⟩
              | (warns, .ok acc') =>
                match pyGeInt ((page : Int) + 1) (extractPages fields) with
                | .error e => ⟨[(page, min limit 100)], warns, .error e⟩
                | .ok true => ⟨[(page, min limit 100)], warns, .ok acc'⟩
                | .ok false =>
                  ⟨(page, min limit 100) :: (fetchLoop env limit rest (page + 1) acc').calls,
                    warns ++ (fetchLoop env limit rest (page + 1) acc').warns,
                    (fetchLoop env limit rest (page + 1) acc').result⟩
        | .null => ⟨[(page, min limit 100)], [], .error .attributeError⟩
        | .int _ => ⟨[(page, min limit 100)], [], .error .attributeError⟩
        | .str _ => ⟨[(page, min limit 100)], [], .error .attributeError⟩
        | .arr _ => ⟨[(page, min limit 100)], [], .error .attributeError⟩

/-- `fetch_all_vacancies(query, area, limit)` over the environment. -/
def fetch_all_vacancies (env : Env) (limit : Nat) : RunResult :=
  fetchLoop env limit env.listing 0 []


/-! ## Lemmas about `dropEnds` (Python `strip`) -/

/-- The head surviving `dropWhile p` fails `p`. -/
lemma head_dropWhile_false (p : Char → Bool) :
    ∀ (l : List Char) (c : Char), (l.dropWhile p).head? = some c → p c = false := by
  intro l
  induction l with
  | nil => intro c h; simp [List.dropWhile] at h
  | cons a l ih =>
    intro c h
    by_cases hp : p a
    · rw [List.dropWhile_cons_of_pos hp] at h
      exact ih c h
    · rw [List.dropWhile_cons_of_neg hp] at h
      simp only [List.head?_cons, Option.some.injEq] at h
      subst h
      exact Bool.eq_false_iff.mpr hp

/-- Dropping the trailing characters satisfying `p`. -/
def dropTrail (p : Char → Bool) (x : List Char) : List Char :=
  (x.reverse.dropWhile p).reverse

lemma dropEnds_eq_dropTrail (p : Char → Bool) (l : List Char) :
    dropEnds p l = dropTrail p (l.dropWhile p) := rfl

/-- `dropTrail` only removes a suffix. -/
lemma dropTrail_append (p : Char → Bool) (x : List Char) :
    x = dropTrail p x ++ (x.reverse.takeWhile p).reverse := by
  rw [dropTrail, ← List.reverse_append, List.takeWhile_append_dropWhile,
    List.reverse_reverse]

/-- The last character surviving `dropTrail p` fails `p`. -/
lemma getLast_dropTrail_false (p : Char → Bool) (x : List Char) (c : Char)
    (h : (dropTrail p x).getLast? = some c) : p c = false := by
  rw [dropTrail, List.getLast?_reverse] at h
  exact head_dropWhile_false p x.reverse c h

/-- The head surviving `dropTrail p` is the head of `x`, when present. -/
lemma head_dropTrail (p : Char → Bool) (x : List Char) (c : Char)
    (h : (dropTrail p x).head? = some c) : x.head? = some c := by
  have hx := dropTrail_append p x
  cases hdt : dropTrail p x with
  | nil => rw [hdt] at h; simp at h
  | cons a t =>
    rw [hdt] at h hx
    simp at h
    rw [hx, List.cons_append]
    simp [h]

/-- The head surviving `dropEnds p` fails `p`. -/
lemma head_dropEnds_false (p : Char → Bool) (l : List Char) (c : Char)
    (h : (dropEnds p l).head? = some c) : p c = false := by
  rw [dropEnds_eq_dropTrail] at h
  exact head_dropWhile_false p l c (head_dropTrail p _ c h)

/-- The last character surviving `dropEnds p` fails `p`. -/
lemma getLast_dropEnds_false (p : Char → Bool) (l : List Char) (c : Char)
    (h : (dropEnds p l).getLast? = some c) : p c = false := by
  rw [dropEnds_eq_dropTrail] at h
  exact getLast_dropTrail_false p _ c h

/-- `dropEnds p l` is a contiguous slice of `l`. -/
lemma dropEnds_infix (p : Char → Bool) (l : List Char) :
    ∃ u v, l = u ++ dropEnds p l ++ v := by
  refine ⟨l.takeWhile p, ((l.dropWhile p).reverse.takeWhile p).reverse, ?_⟩
  rw [dropEnds_eq_dropTrail]
  conv_lhs => rw [← List.takeWhile_append_dropWhile (p := p) (l := l)]
  rw [List.append_assoc, ← dropTrail_append]

/-- `dropWhile p` is the identity when the head fails `p`. -/
lemma dropWhile_of_head_false (p : Char → Bool) (x : List Char)
    (h : ∀ c, x.head? = some c → p c = false) : x.dropWhile p = x := by
  cases x with
  | nil => rfl
  | cons a t =>
    have := h a rfl
    simp [List.dropWhile_cons, this]

/-- `str.strip` is idempotent. -/
lemma dropEnds_idem (p : Char → Bool) (l : List Char) :
    dropEnds p (dropEnds p l) = dropEnds p l := by
  have hfront : (dropEnds p l).dropWhile p = dropEnds p l :=
    dropWhile_of_head_false p _ (head_dropEnds_false p l)
  have hback : ((dropEnds p l).reverse).dropWhile p = (dropEnds p l).reverse := by
    apply dropWhile_of_head_false
    intro c hc
    rw [List.head?_reverse] at hc
    exact getLast_dropEnds_false p l c hc
  rw [dropEnds, hfront, hback, List.reverse_reverse]

/-- Membership in `dropEnds p l` implies membership in `l`. -/
lemma mem_of_mem_dropEnds (p : Char → Bool) (l : List Char) (c : Char)
    (h : c ∈ dropEnds p l) : c ∈ l := by
  obtain ⟨u, v, hl⟩ := dropEnds_infix p l
  rw [hl]
  simp [h]

/-! ## The retry loop: attempts, backoff, final error -/

/-- Does `n` occur at the start of the second list? -/
def startsList : List Char → List Char → Bool
  | [], _ => true
  | _ :: _, [] => false
  | a :: as, b :: bs => a == b && startsList as bs

/-- Does `n` occur as a contiguous substring of the second list? -/
def containsList (n : List Char) : List Char → Bool
  | [] => n.isEmpty
  | c :: t => startsList n (c :: t) || containsList n t

lemma startsList_refl : ∀ x : List Char, startsList x x = true := by
  intro x
  induction x with
  | nil => rfl
  | cons a as ih => simp [startsList, ih]

lemma containsList_append : ∀ (P x : List Char), containsList x (P ++ x) = true := by
  intro P x
  induction P with
  | nil =>
    cases x with
    | nil => rfl
    | cons c t => simp [containsList, startsList_refl]
  | cons c P ih => simp [containsList, ih]

/-- The final `HHAPIError` message of the listing fetch contains the
last underlying error text. -/
lemma listFailMsg_contains (e : String) :
    containsList e.data (listFailMsg e).data = true := by
  have : (listFailMsg e).data
      = ("Failed to fetch vacancies list after " ++ toString MAX_RETRIES
          ++ " attempts: ").data ++ e.data := by
    simp [listFailMsg, String.data_append]
  rw [this]
  exact containsList_append _ _

/-- The final `HHAPIError` message of the detail fetch contains the
last underlying error text. -/
lemma detailFailMsg_contains (vid e : String) :
    containsList e.data (detailFailMsg vid e).data = true := by
  have : (detailFailMsg vid e).data
      = ("Failed to fetch vacancy " ++ vid ++ ": ").data ++ e.data := by
    simp [detailFailMsg, String.data_append]
  rw [this]
  exact containsList_append _ _

/-- Full behaviour of one retried call: at most `MAX_RETRIES` attempts,
one linear-backoff sleep after each failed non-final attempt, and the
final-failure result built by `mkMsg` from the last underlying error. -/
lemma retryGo_spec (outcomes : Nat → Except String Json) (mkMsg : String → String) :
    (retryGo outcomes mkMsg 0 MAX_RETRIES).attempts ≤ MAX_RETRIES ∧
    (retryGo outcomes mkMsg 0 MAX_RETRIES).sleeps
      = (List.range ((retryGo outcomes mkMsg 0 MAX_RETRIES).attempts - 1)).map
          (fun i => RETRY_DELAY * ((i : ℚ) + 1)) ∧
    (∀ e0 e1 e2, outcomes 0 = .error e0 → outcomes 1 = .error e1 →
      outcomes 2 = .error e2 →
      (retryGo outcomes mkMsg 0 MAX_RETRIES).result = .error (mkMsg e2)) := by
  show (retryGo outcomes mkMsg 0 3).attempts ≤ 3 ∧ _ ∧ _
  cases h0 : outcomes 0 with
  | ok v =>
    refine ⟨?_, ?_, ?_⟩ <;>
      simp [retryGo, MAX_RETRIES, h0, List.range_zero]
  | error e0 =>
    cases h1 : outcomes 1 with
    | ok v =>
      refine ⟨?_, ?_, ?_⟩ <;>
        simp [retryGo, MAX_RETRIES, h0, h1, List.range_succ, List.range_zero]
    | error e1 =>
      cases h2 : outcomes 2 with
      | ok v =>
        refine ⟨?_, ?_, ?_⟩ <;>
          simp [retryGo, MAX_RETRIES, h0, h1, h2, List.range_succ, List.range_zero]
      | error e2 =>
        refine ⟨?_, ?_, ?_⟩ <;>
          simp [retryGo, MAX_RETRIES, h0, h1, h2, List.range_succ, List.range_zero]

/-- C2 (counterexample): when every attempt fails with an underlying
error that does not mention the URL, the final `HHAPIError` of
`fetch_vacancies_list` carries the last underlying error but does NOT
carry the URL attempted — the code builds the message from the attempt
count and the underlying error only (line 59). -/
theorem retry_error_lacks_url :
    (fetch_vacancies_list fun _ => .error "boom").result
      = .error "Failed to fetch vacancies list after 3 attempts: boom" ∧
    containsList "boom".data
      "Failed to fetch vacancies list after 3 attempts: boom".data = true ∧
    containsList listUrl.data
      "Failed to fetch vacancies list after 3 attempts: boom".data = false := by
  refine ⟨?_, by decide, by decide⟩
  rfl

/-- C2 (amended): each of `fetch_vacancies_list` and
`fetch_vacancy_detail` makes at most `MAX_RETRIES` (3) attempts; after
each failed non-final attempt it sleeps `RETRY_DELAY` times the
1-indexed attempt number (linear backoff); and when the final attempt
also fails, the call fails with an `HHAPIError` whose message carries
the last underlying error (the listing message does not include the
URL; the detail message includes the vacancy id, not the URL). -/
theorem retry_attempts_backoff_last_error
    (outcomes : Nat → Except String Json) (vid : String) :
    (fetch_vacancies_list outcomes).attempts ≤ MAX_RETRIES ∧
    (fetch_vacancy_detail vid outcomes).attempts ≤ MAX_RETRIES ∧
    (fetch_vacancies_list outcomes).sleeps
      = (List.range ((fetch_vacancies_list outcomes).attempts - 1)).map
          (fun i => RETRY_DELAY * ((i : ℚ) + 1)) ∧
    (fetch_vacancy_detail vid outcomes).sleeps
      = (List.range ((fetch_vacancy_detail vid outcomes).attempts - 1)).map
          (fun i => RETRY_DELAY * ((i : ℚ) + 1)) ∧
    (∀ e0 e1 e2, outcomes 0 = .error e0 → outcomes 1 = .error e1 →
      outcomes 2 = .error e2 →
      (fetch_vacancies_list outcomes).result = .error (listFailMsg e2) ∧
      containsList e2.data (listFailMsg e2).data = true ∧
      (fetch_vacancy_detail vid outcomes).result = .error (detailFailMsg vid e2) ∧
      containsList e2.data (detailFailMsg vid e2).data = true) := by
  obtain ⟨hl1, hl2, hl3⟩ := retryGo_spec outcomes listFailMsg
  obtain ⟨hd1, hd2, hd3⟩ := retryGo_spec outcomes (detailFailMsg vid)
  refine ⟨hl1, hd1, hl2, hd2, ?_⟩
  intro e0 e1 e2 h0 h1 h2
  exact ⟨hl3 e0 e1 e2 h0 h1 h2, listFailMsg_contains e2,
    hd3 e0 e1 e2 h0 h1 h2, detailFailMsg_contains vid e2⟩

/-- C2 (witness): the amended theorem at a concrete outcome sequence
failing all three attempts. -/
theorem retry_attempts_backoff_last_error_witness :
    (fetch_vacancies_list fun _ => .error "down").result
        = .error (listFailMsg "down") ∧
    (fetch_vacancy_detail "7" fun _ => .error "down").result
        = .error (detailFailMsg "7" "down") ∧
    (fetch_vacancies_list fun _ => .error "down").sleeps
        = [RETRY_DELAY * 1, RETRY_DELAY * 2] := by
  obtain ⟨-, -, -, hs, h⟩ :=
    retry_attempts_backoff_last_error (fun _ => .error "down") "7"
  obtain ⟨hr, -, hd, -⟩ := h "down" "down" "down" rfl rfl rfl
  refine ⟨hr, hd, ?_⟩
  norm_num [fetch_vacancies_list, retryGo, MAX_RETRIES, List.range_succ]

/-- C4: `clean_html` is total — for every input, including `None` and
the empty string, it returns a string; `None` or empty input yields the
empty string. -/
theorem clean_html_total_null_empty (x : Option String) :
    (∃ r : String, clean_html x = r) ∧
    ((x = none ∨ x = some "") → clean_html x = "") := by
  refine ⟨⟨clean_html x, rfl⟩, ?_⟩
  rintro (rfl | rfl) <;> rfl

/-- C4 (witness): the theorem applied at `None` and at the empty
string. -/
theorem clean_html_total_null_empty_witness :
    clean_html none = "" ∧ clean_html (some "") = "" :=
  ⟨(clean_html_total_null_empty none).2 (Or.inl rfl),
   (clean_html_total_null_empty (some "")).2 (Or.inr rfl)⟩

/-! ## C3: the tolerant `pages` extraction -/

/-- An environment whose single listing page carries a `pages` field of
string shape — neither a plain integer nor a nested object. -/
def envPagesStr : Env :=
  { listing := [.ok (.obj [("items", .arr [.obj [("id", .str "1")]]),
                           ("pages", .str "x")])]
    detail := fun _ => .ok (.obj [("name", .str "T"), ("description", .null)]) }

/-- C3 (counterexample): a listing response whose `pages` field is the
string `"x"` (neither accepted shape) is NOT treated as one page — the
run crashes with a `TypeError` at the `page + 1 >= total_pages`
comparison (line 175), because only the dict shape is re-examined
(lines 173–174) and every other non-int shape flows into the
comparison. -/
theorem pages_string_shape_crashes :
    (fetch_all_vacancies envPagesStr 5).result = .error .typeError := by
  rfl

/-- C3 (amended): the extraction tolerates exactly the two accepted
shapes — a plain integer is used as-is, a nested object has its `pages`
integer used (defaulting to 1 when that key is missing) — and a missing
`pages` field defaults to 1; any other shape (for example a string) is
passed to the `>=` comparison unchanged and raises `TypeError` instead
of defaulting to 1. -/
theorem pages_extraction_accepted_shapes (fields : List (String × Json)) (page : Nat) :
    (jLookup fields "pages" = none → extractPages fields = .int 1) ∧
    (∀ n, jLookup fields "pages" = some (.int n) → extractPages fields = .int n) ∧
    (∀ tf n, jLookup fields "pages" = some (.obj tf) →
      jLookup tf "pages" = some (.int n) → extractPages fields = .int n) ∧
    (∀ tf, jLookup fields "pages" = some (.obj tf) →
      jLookup tf "pages" = none → extractPages fields = .int 1) ∧
    (∀ n, extractPages fields = .int n →
      pyGeInt ((page : Int) + 1) (extractPages fields)
        = .ok (decide (n ≤ (page : Int) + 1))) ∧
    (∀ s, jLookup fields "pages" = some (.str s) →
      pyGeInt ((page : Int) + 1) (extractPages fields) = .error .typeError) := by
  refine ⟨?_, ?_, ?_, ?_, ?_, ?_⟩
  · intro h; simp [extractPages, h]
  · intro n h; simp [extractPages, h]
  · intro tf n h h2; simp [extractPages, h, h2]
  · intro tf h h2; simp [extractPages, h, h2]
  · intro n h; simp [h, pyGeInt]
  · intro s h; simp [extractPages, h, pyGeInt]

/-- C3 (witness): the amended theorem at concrete shapes. -/
theorem pages_extraction_accepted_shapes_witness :
    extractPages [("pages", .int 4)] = .int 4 ∧
    extractPages [("pages", .obj [("pages", .int 6)])] = .int 6 ∧
    extractPages [("items", .arr [])] = .int 1 ∧
    pyGeInt 1 (extractPages [("pages", .str "x")]) = .error .typeError := by
  refine ⟨?_, ?_, ?_, ?_⟩
  · exact (pages_extraction_accepted_shapes [("pages", .int 4)] 0).2.1 4 rfl
  · exact (pages_extraction_accepted_shapes
      [("pages", .obj [("pages", .int 6)])] 0).2.2.1 [("pages", .int 6)] 6 rfl rfl
  · exact (pages_extraction_accepted_shapes [("items", .arr [])] 0).1 rfl
  · exact (pages_extraction_accepted_shapes [("pages", .str "x")] 0).2.2.2.2.2 "x" rfl

/-! ## C1: the limit bounds the accumulator -/

/-- The inner item loop preserves the limit bound on the accumulator. -/
lemma processItems_length (env : Env) (limit : Nat) :
    ∀ (items : List Json) (acc : List Vacancy), acc.length ≤ limit →
      ∀ ws acc', processItems env limit items acc = (ws, .ok acc') →
        acc'.length ≤ limit := by
  intro items
  induction items with
  | nil =>
    intro acc hacc ws acc' h
    simp only [processItems, Prod.mk.injEq, Except.ok.injEq] at h
    rw [← h.2]
    exact hacc
  | cons item rest ih =>
    intro acc hacc ws acc' h
    cases item with
    | obj f =>
      rw [processItems] at h
      split at h
      · simp only [Prod.mk.injEq, Except.ok.injEq] at h
        rw [← h.2]
        exact hacc
      · rename_i hfull
        split at h
        · split at h
          · simp only [Prod.mk.injEq] at h
            exact ih acc hacc (processItems env limit rest acc).1 acc'
              (by rw [← h.2])
          · split at h
            · split at h
              · simp at h
              · exact ih _ (by simp; omega) ws acc' h
            all_goals simp at h
        · exact ih acc hacc ws acc' h
    | null =>
      rw [processItems] at h
      split at h
      · simp only [Prod.mk.injEq, Except.ok.injEq] at h
        rw [← h.2]
        exact hacc
      · simp at h
    | int n =>
      rw [processItems] at h
      split at h
      · simp only [Prod.mk.injEq, Except.ok.injEq] at h
        rw [← h.2]
        exact hacc
      · simp at h
    | str s =>
      rw [processItems] at h
      split at h
      · simp only [Prod.mk.injEq, Except.ok.injEq] at h
        rw [← h.2]
        exact hacc
      · simp at h
    | arr xs =>
      rw [processItems] at h
      split at h
      · simp only [Prod.mk.injEq, Except.ok.injEq] at h
        rw [← h.2]
        exact hacc
      · simp at h

/-- Unfolding equation of `fetchLoop` at an exhausted listing. -/
lemma fetchLoop_nil (env : Env) (limit : Nat) (page : Nat) (acc : List Vacancy) :
    fetchLoop env limit [] page acc =
      if limit ≤ acc.length then ⟨[], [], .ok acc⟩
      else ⟨[(page, min limit 100)], [],
        .error (.hhapiError (listFailMsg "transport"))⟩ := rfl

/-- Unfolding equation of `fetchLoop` at a remaining listing page. -/
lemma fetchLoop_cons (env : Env) (limit : Nat) (resp : Except String Json)
    (rest : List (Except String Json)) (page : Nat) (acc : List Vacancy) :
    fetchLoop env limit (resp :: rest) page acc =
      if limit ≤ acc.length then ⟨[], [], .ok acc⟩
      else
        match resp with
        | .error e => ⟨[(page, min limit 100)], [], .error (.hhapiError (listFailMsg e))⟩
        | .ok data =>
          match data with
          | .obj fields =>
            if !pyTruthy ((jLookup fields "items").getD (.arr [])) then
              ⟨[(page, min limit 100)], [], .ok acc⟩
            else
              match pyIter ((jLookup fields "items").getD (.arr [])) with
              | .error e => ⟨[(page, min limit 100)], [], .error e⟩
              | .ok itemList =>
                match processItems env limit itemList acc with
                | (warns, .error e) => ⟨[(page, min limit 100)], warns, .error e⟩
                | (warns, .ok acc') =>
                  match pyGeInt ((page : Int) + 1) (extractPages fields) with
                  | .error e => ⟨[(page, min limit 100)], warns, .error e⟩
                  | .ok true => ⟨[(page, min limit 100)], warns, .ok acc'⟩
                  | .ok false =>
                    ⟨(page, min limit 100) :: (fetchLoop env limit rest (page + 1) acc').calls,
                      warns ++ (fetchLoop env limit rest (page + 1) acc').warns,
                      (fetchLoop env limit rest (page + 1) acc').result⟩
          | .null => ⟨[(page, min limit 100)], [], .error .attributeError⟩
          | .int _ => ⟨[(page, min limit 100)], [], .error .attributeError⟩
          | .str _ => ⟨[(page, min limit 100)], [], .error .attributeError⟩
          | .arr _ => ⟨[(page, min limit 100)], [], .error .attributeError⟩ := rfl

/-- The page loop preserves the limit bound on the accumulator. -/
lemma fetchLoop_length (env : Env) (limit : Nat) :
    ∀ (rem : List (Except String Json)) (page : Nat) (acc : List Vacancy),
      acc.length ≤ limit →
      ∀ l, (fetchLoop env limit rem page acc).result = .ok l → l.length ≤ limit := by
  intro rem
  induction rem with
  | nil =>
    intro page acc hacc l h
    rw [fetchLoop_nil] at h
    split at h
    · simp only [Except.ok.injEq] at h
      rw [← h]
      exact hacc
    · simp at h
  | cons resp rest ih =>
    intro page acc hacc l h
    rw [fetchLoop_cons] at h
    split at h
    · simp only [Except.ok.injEq] at h
      rw [← h]
      exact hacc
    · split at h
      · simp at h
      · split at h
        · split at h
          · simp only [Except.ok.injEq] at h
            rw [← h]
            exact hacc
          · split at h
            · simp at h
            · rename_i itemList hiter
              split at h
              · simp at h
              · rename_i warns acc' hpi
                have hacc' : acc'.length ≤ limit :=
                  processItems_length env limit itemList acc hacc warns acc' hpi
                split at h
                · simp at h
                · simp only [Except.ok.injEq] at h
                  rw [← h]
                  exact hacc'
                · exact ih (page + 1) acc' hacc' l h
        all_goals simp at h

/-- C1: for every limit ≥ 1 and every environment of listing and
detail responses, whenever `fetch_all_vacancies` returns a list it has
length at most `limit`; and the accumulated sequence never exceeds the
limit at any point of the run — from any intermediate state of the page
loop or of the item loop whose accumulator is within the limit, every
later accumulator, in particular the returned one, stays within the
limit. -/
theorem fetch_all_respects_limit (env : Env) (limit : Nat) (hlim : 1 ≤ limit) :
    (∀ rem page acc, acc.length ≤ limit →
      ∀ l, (fetchLoop env limit rem page acc).result = .ok l → l.length ≤ limit) ∧
    (∀ items acc, acc.length ≤ limit →
      ∀ ws acc', processItems env limit items acc = (ws, .ok acc') →
        acc'.length ≤ limit) ∧
    (∀ l, (fetch_all_vacancies env limit).result = .ok l → l.length ≤ limit) := by
  refine ⟨fetchLoop_length env limit, processItems_length env limit, ?_⟩
  intro l h
  exact fetchLoop_length env limit env.listing 0 [] (by simp) l h

/-- C1 (witness): the theorem at a concrete environment (one page of
two items, both details succeeding) and limit 1: only one record is
returned. -/
theorem fetch_all_respects_limit_witness :
    ((fetch_all_vacancies
      { listing := [.ok (.obj [("items", .arr [.obj [("id", .str "1")],
                                               .obj [("id", .str "2")]]),
                               ("pages", .int 1)])]
        detail := fun _ => .ok (.obj [("name", .str "T"),
                                      ("description", .null)]) } 1).result
       = .ok [⟨.str "1", .str "T", ""⟩]) ∧
    ([⟨Json.str "1", Json.str "T", ""⟩] : List Vacancy).length ≤ 1 := by
  refine ⟨rfl, ?_⟩
  exact (fetch_all_respects_limit
      { listing := [.ok (.obj [("items", .arr [.obj [("id", .str "1")],
                                               .obj [("id", .str "2")]]),
                               ("pages", .int 1)])]
        detail := fun _ => .ok (.obj [("name", .str "T"),
                                      ("description", .null)]) } 1 (by omega)).2.2
    [⟨Json.str "1", Json.str "T", ""⟩] rfl

/-! ## C8: page size and pagination stop -/

/-- Every listing request of a run uses `per_page = min limit 100`. -/
lemma fetchLoop_calls_perPage (env : Env) (limit : Nat) :
    ∀ (rem : List (Except String Json)) (page : Nat) (acc : List Vacancy),
      ∀ pr ∈ (fetchLoop env limit rem page acc).calls, pr.2 = min limit 100 := by
  intro rem
  induction rem with
  | nil =>
    intro page acc pr hpr
    rw [fetchLoop_nil] at hpr
    split at hpr <;> simp_all
  | cons resp rest ih =>
    intro page acc pr hpr
    rw [fetchLoop_cons] at hpr
    split at hpr
    · simp at hpr
    · split at hpr
      · simp_all
      · split at hpr
        · split at hpr
          · simp_all
          · split at hpr
            · simp_all
            · split at hpr
              · simp_all
              · split at hpr
                · simp_all
                · simp_all
                · simp only [List.mem_cons] at hpr
                  rcases hpr with rfl | hpr
                  · rfl
                  · exact ih (page + 1) _ pr hpr
        all_goals simp_all

/-- The scenario environment of C8: one page of three items, all
details succeeding, the remote reporting a single page. -/
def envScenario : Env :=
  { listing := [.ok (.obj [("items", .arr [.obj [("id", .str "1")],
                                           .obj [("id", .str "2")],
                                           .obj [("id", .str "3")]]),
                           ("pages", .int 1)])]
    detail := fun _ => .ok (.obj [("name", .str "T"), ("description", .str "d")]) }

/-- C8: every listing request uses page size `min(limit, 100)`; the
loop stops as soon as `pageIndex + 1 >= totalPages`, returning the
accumulated records without further listing requests even when fewer
than `limit` records were accumulated; in particular, with `limit = 5`
and a single page of three succeeding items and `totalPages = 1`, the
run makes one request of size 5 and stops with exactly 3 records. -/
theorem page_size_and_pagination_stop (env : Env) (limit : Nat) :
    (∀ rem page acc, ∀ pr ∈ (fetchLoop env limit rem page acc).calls,
      pr.2 = min limit 100) ∧
    (∀ resp rest (page : Nat) acc fields itemList warns acc',
      ¬ limit ≤ acc.length →
      resp = .ok (.obj fields) →
      pyTruthy ((jLookup fields "items").getD (.arr [])) = true →
      pyIter ((jLookup fields "items").getD (.arr [])) = .ok itemList →
      processItems env limit itemList acc = (warns, .ok acc') →
      pyGeInt ((page : Int) + 1) (extractPages fields) = .ok true →
      fetchLoop env limit (resp :: rest) page acc
        = ⟨[(page, min limit 100)], warns, .ok acc'⟩) ∧
    ((fetch_all_vacancies envScenario 5).result
        = .ok [⟨.str "1", .str "T", "d"⟩, ⟨.str "2", .str "T", "d"⟩,
               ⟨.str "3", .str "T", "d"⟩] ∧
      (fetch_all_vacancies envScenario 5).calls = [(0, 5)]) := by
  refine ⟨fetchLoop_calls_perPage env limit, ?_, rfl, rfl⟩
  intro resp rest page acc fields itemList warns acc' hfull hresp hitems hiter hpi hge
  subst hresp
  rw [fetchLoop_cons]
  rw [if_neg hfull]
  simp only [hitems, Bool.not_true, Bool.false_eq_true, if_false, hiter, hpi, hge]

/-- C8 (witness): the theorem applied at the scenario environment,
discharging the hypotheses of its general parts there. -/
theorem page_size_and_pagination_stop_witness :
    (0, min 5 100).2 = min 5 100 ∧
    fetchLoop envScenario 5 envScenario.listing 0 []
      = ⟨[(0, min 5 100)], [],
          .ok [⟨.str "1", .str "T", "d"⟩, ⟨.str "2", .str "T", "d"⟩,
               ⟨.str "3", .str "T", "d"⟩]⟩ := by
  constructor
  · exact (page_size_and_pagination_stop envScenario 5).1 envScenario.listing 0 []
      (0, min 5 100) (by decide)
  · exact (page_size_and_pagination_stop envScenario 5).2.1
      (envScenario.listing.head (by simp [envScenario])) [] 0 []
      [("items", .arr [.obj [("id", .str "1")], .obj [("id", .str "2")],
                       .obj [("id", .str "3")]]), ("pages", .int 1)]
      [.obj [("id", .str "1")], .obj [("id", .str "2")], .obj [("id", .str "3")]]
      [] [⟨.str "1", .str "T", "d"⟩, ⟨.str "2", .str "T", "d"⟩,
          ⟨.str "3", .str "T", "d"⟩]
      (by simp) rfl rfl rfl rfl rfl

/-! ## C10: descriptions carry no outer whitespace -/

/-- A string with no leading and no trailing whitespace. -/
def StrippedStr (s : String) : Prop :=
  (∀ c, s.data.head? = some c → isPySpace c = false) ∧
  (∀ c, s.data.getLast? = some c → isPySpace c = false)

lemma strippedStr_empty : StrippedStr "" :=
  ⟨fun c h => by simp at h, fun c h => by simp at h⟩

/-- Every output of `clean_html` is stripped. -/
lemma clean_html_strippedStr (x : Option String) : StrippedStr (clean_html x) := by
  cases x with
  | none => exact strippedStr_empty
  | some s =>
    by_cases hs : s = ""
    · subst hs
      exact strippedStr_empty
    · constructor
      · intro c h
        simp only [clean_html, if_neg hs] at h
        exact head_dropEnds_false _ _ c h
      · intro c h
        simp only [clean_html, if_neg hs] at h
        exact getLast_dropEnds_false _ _ c h

/-- Every successful output of the orchestrator's `clean_html` call is
stripped. -/
lemma pyCleanHtml_strippedStr (j : Json) (d : String)
    (h : pyCleanHtml j = .ok d) : StrippedStr d := by
  cases j with
  | null =>
    simp only [pyCleanHtml, Except.ok.injEq] at h
    rw [← h]
    exact clean_html_strippedStr none
  | str s =>
    simp only [pyCleanHtml, Except.ok.injEq] at h
    rw [← h]
    exact clean_html_strippedStr (some s)
  | int n =>
    rw [pyCleanHtml] at h
    · split at h
      · simp at h
      · simp only [Except.ok.injEq] at h
        rw [← h]
        exact strippedStr_empty
    all_goals simp
  | arr xs =>
    rw [pyCleanHtml] at h
    · split at h
      · simp at h
      · simp only [Except.ok.injEq] at h
        rw [← h]
        exact strippedStr_empty
    all_goals simp
  | obj fs =>
    rw [pyCleanHtml] at h
    · split at h
      · simp at h
      · simp only [Except.ok.injEq] at h
        rw [← h]
        exact strippedStr_empty
    all_goals simp

/-- The item loop only appends records with stripped descriptions. -/
lemma processItems_stripped (env : Env) (limit : Nat) :
    ∀ (items : List Json) (acc : List Vacancy),
      (∀ v ∈ acc, StrippedStr v.description) →
      ∀ ws acc', processItems env limit items acc = (ws, .ok acc') →
        ∀ v ∈ acc', StrippedStr v.description := by
  intro items
  induction items with
  | nil =>
    intro acc hacc ws acc' h
    simp only [processItems, Prod.mk.injEq, Except.ok.injEq] at h
    rw [← h.2]
    exact hacc
  | cons item rest ih =>
    intro acc hacc ws acc' h
    cases item with
    | obj f =>
      rw [processItems] at h
      split at h
      · simp only [Prod.mk.injEq, Except.ok.injEq] at h
        rw [← h.2]
        exact hacc
      · split at h
        · split at h
          · simp only [Prod.mk.injEq] at h
            exact ih acc hacc (processItems env limit rest acc).1 acc'
              (by rw [← h.2])
          · split at h
            · split at h
              · simp at h
              · rename_i desc hch
                refine ih _ ?_ ws acc' h
                intro v hv
                rcases List.mem_append.mp hv with hv | hv
                · exact hacc v hv
                · simp only [List.mem_singleton] at hv
                  rw [hv]
                  exact pyCleanHtml_strippedStr _ desc hch
            all_goals simp at h
        · exact ih acc hacc ws acc' h
    | null =>
      rw [processItems] at h
      split at h
      · simp only [Prod.mk.injEq, Except.ok.injEq] at h
        rw [← h.2]
        exact hacc
      · simp at h
    | int n =>
      rw [processItems] at h
      split at h
      · simp only [Prod.mk.injEq, Except.ok.injEq] at h
        rw [← h.2]
        exact hacc
      · simp at h
    | str s =>
      rw [processItems] at h
      split at h
      · simp only [Prod.mk.injEq, Except.ok.injEq] at h
        rw [← h.2]
        exact hacc
      · simp at h
    | arr xs =>
      rw [processItems] at h
      split at h
      · simp only [Prod.mk.injEq, Except.ok.injEq] at h
        rw [← h.2]
        exact hacc
      · simp at h

/-- The page loop only accumulates records with stripped
descriptions. -/
lemma fetchLoop_stripped (env : Env) (limit : Nat) :
    ∀ (rem : List (Except String Json)) (page : Nat) (acc : List Vacancy),
      (∀ v ∈ acc, StrippedStr v.description) →
      ∀ l, (fetchLoop env limit rem page acc).result = .ok l →
        ∀ v ∈ l, StrippedStr v.description := by
  intro rem
  induction rem with
  | nil =>
    intro page acc hacc l h
    rw [fetchLoop_nil] at h
    split at h
    · simp only [Except.ok.injEq] at h
      rw [← h]
      exact hacc
    · simp at h
  | cons resp rest ih =>
    intro page acc hacc l h
    rw [fetchLoop_cons] at h
    split at h
    · simp only [Except.ok.injEq] at h
      rw [← h]
      exact hacc
    · split at h
      · simp at h
      · split at h
        · split at h
          · simp only [Except.ok.injEq] at h
            rw [← h]
            exact hacc
          · split at h
            · simp at h
            · rename_i itemList hiter
              split at h
              · simp at h
              · rename_i warns acc' hpi
                have hacc' : ∀ v ∈ acc', StrippedStr v.description :=
                  processItems_stripped env limit itemList acc hacc warns acc' hpi
                split at h
                · simp at h
                · simp only [Except.ok.injEq] at h
                  rw [← h]
                  exact hacc'
                · exact ih (page + 1) acc' hacc' l h
        all_goals simp at h

/-- C10: every record returned by `fetch_all_vacancies` has a
description with no leading and no trailing whitespace (each
description is an output of `clean_html`, which ends by stripping the
string). -/
theorem fetch_all_descriptions_stripped (env : Env) (limit : Nat)
    (l : List Vacancy) (h : (fetch_all_vacancies env limit).result = .ok l) :
    ∀ v ∈ l, StrippedStr v.description := by
  exact fetchLoop_stripped env limit env.listing 0 [] (by simp) l h

/-- C10 (witness): the theorem at an environment whose detail carries a
description with outer whitespace and markup; the returned description
is the stripped text. -/
theorem fetch_all_descriptions_stripped_witness :
    StrippedStr "x y" := by
  have h := fetch_all_descriptions_stripped
    { listing := [.ok (.obj [("items", .arr [.obj [("id", .str "1")]]),
                             ("pages", .int 1)])]
      detail := fun _ => .ok (.obj [("name", .str "T"),
                                    ("description", .str "  x y \n")]) } 3
    [⟨.str "1", .str "T", "x y"⟩] rfl
  exact h ⟨.str "1", .str "T", "x y"⟩ (by simp)

/-! ## C7: a detail failure skips exactly that item -/

/-- The id the orchestrator extracts from a listing item. -/
def itemId : Json → Json
  | .obj f => (jLookup f "id").getD .null
  | .null => .null
  | .int _ => .null
  | .str _ => .null
  | .arr _ => .null

/-- A listing item that is a dict with a truthy id. -/
def goodItem : Json → Bool
  | .obj f => pyTruthy ((jLookup f "id").getD .null)
  | .null => false
  | .int _ => false
  | .str _ => false
  | .arr _ => false

/-- Does the detail fetch for this item succeed? -/
def detailOk (env : Env) (i : Json) : Bool :=
  match env.detail (itemId i) with
  | .ok _ => true
  | .error _ => false

/-- A detail response the record construction can consume: either a
failure (recovered by skipping), or a dict whose `description` is a
string or falsy. -/
def goodDetailResp : Except String Json → Bool
  | .error _ => true
  | .ok (.obj df) =>
    match (jLookup df "description").getD .null with
    | .str _ => true
    | .null => true
    | .int n => decide (n = 0)
    | .arr xs => xs.isEmpty
    | .obj fs => fs.isEmpty
  | .ok .null => false
  | .ok (.int _) => false
  | .ok (.str _) => false
  | .ok (.arr _) => false

/-- A consumable description value never makes `clean_html` raise. -/
lemma goodDetailResp_cleanHtml (df : List (String × Json))
    (h : goodDetailResp (.ok (.obj df)) = true) :
    ∃ d, pyCleanHtml ((jLookup df "description").getD .null) = .ok d := by
  rw [goodDetailResp] at h
  cases hdesc : (jLookup df "description").getD .null with
  | str s => exact ⟨clean_html (some s), rfl⟩
  | null => exact ⟨clean_html none, rfl⟩
  | int n =>
    rw [hdesc] at h
    simp only [decide_eq_true_eq] at h
    exact ⟨"", by simp [pyCleanHtml, pyTruthy, h]⟩
  | arr xs =>
    rw [hdesc] at h
    simp only [List.isEmpty_iff] at h
    exact ⟨"", by simp [pyCleanHtml, pyTruthy, h]⟩
  | obj fs =>
    rw [hdesc] at h
    simp only [List.isEmpty_iff] at h
    exact ⟨"", by simp [pyCleanHtml, pyTruthy, h]⟩

/-- Characterization of the item loop when every item is well-shaped,
every detail response is consumable, and the limit leaves room for the
whole page: the run succeeds, the warned ids are the ids of the items
whose detail fetch failed, and the accumulated ids extend the previous
ones with the ids of the items whose detail fetch succeeded, in
order. -/
lemma processItems_char (env : Env) (limit : Nat) :
    ∀ (items : List Json) (acc : List Vacancy),
      (∀ i ∈ items, goodItem i = true) →
      (∀ i ∈ items, goodDetailResp (env.detail (itemId i)) = true) →
      acc.length + items.length ≤ limit →
      ∃ acc', processItems env limit items acc
          = ((items.filter (fun i => !detailOk env i)).map itemId, .ok acc') ∧
        acc'.map (fun v => v.id)
          = acc.map (fun v => v.id) ++ (items.filter (detailOk env)).map itemId := by
  intro items
  induction items with
  | nil =>
    intro acc hgood hresp hlen
    exact ⟨acc, by simp [processItems]⟩
  | cons item rest ih =>
    intro acc hgood hresp hlen
    have hfull : ¬ limit ≤ acc.length := by
      simp only [List.length_cons] at hlen
      omega
    cases item with
    | obj f =>
      have hid : pyTruthy ((jLookup f "id").getD .null) = true :=
        hgood (.obj f) (by simp)
      rw [processItems, if_neg hfull]
      simp only [hid, if_true]
      cases hdet : env.detail ((jLookup f "id").getD .null) with
      | error e =>
        have hok : detailOk env (.obj f) = false := by
          simp [detailOk, itemId, hdet]
        obtain ⟨acc', hpi, hids⟩ := ih acc
          (fun i hi => hgood i (by simp [hi]))
          (fun i hi => hresp i (by simp [hi]))
          (by simp only [List.length_cons] at hlen; omega)
        refine ⟨acc', ?_, ?_⟩
        · rw [hpi]
          simp [List.filter_cons, hok, itemId]
        · rw [hids]
          simp [List.filter_cons, hok]
      | ok detail =>
        have hok : detailOk env (.obj f) = true := by
          simp [detailOk, itemId, hdet]
        have hgd : goodDetailResp (.ok detail) = true := by
          have := hresp (.obj f) (by simp)
          rw [itemId, hdet] at this
          exact this
        cases detail with
        | obj df =>
          obtain ⟨d, hd⟩ := goodDetailResp_cleanHtml df hgd
          simp only []
          rw [hd]
          simp only []
          obtain ⟨acc', hpi, hids⟩ := ih
            (acc ++ [⟨(jLookup f "id").getD .null,
              (jLookup df "name").getD (.str ""), d⟩])
            (fun i hi => hgood i (by simp [hi]))
            (fun i hi => hresp i (by simp [hi]))
            (by simp only [List.length_cons, List.length_append,
                  List.length_singleton, List.length_nil] at hlen ⊢; omega)
          refine ⟨acc', ?_, ?_⟩
          · rw [hpi]
            simp [List.filter_cons, hok]
          · rw [hids]
            simp [List.filter_cons, hok, itemId]
        | null => simp [goodDetailResp] at hgd
        | int n => simp [goodDetailResp] at hgd
        | str s => simp [goodDetailResp] at hgd
        | arr xs => simp [goodDetailResp] at hgd
    | null => simp [goodItem] at hgood
    | int n => simp [goodItem] at hgood
    | str s => simp [goodItem] at hgood
    | arr xs => simp [goodItem] at hgood

/-- C7: when exactly one item's detail fetch fails after all transport
retries (and every other item's detail succeeds), the orchestrator logs
a warning naming that item's id, omits exactly that item from the
output, and completes the run successfully with the remaining items in
order — a detail fetch failure is never fatal to
`fetch_all_vacancies`. -/
theorem detail_failure_skips_item (env : Env) (limit : Nat)
    (pre post : List Json) (bad : Json) (fields : List (String × Json))
    (hlist : env.listing = [.ok (.obj fields)])
    (hitems : jLookup fields "items" = some (.arr (pre ++ bad :: post)))
    (hpages : jLookup fields "pages" = some (.int 1))
    (hgood : ∀ i ∈ pre ++ bad :: post, goodItem i = true)
    (hresp : ∀ i ∈ pre ++ bad :: post,
      goodDetailResp (env.detail (itemId i)) = true)
    (hbad : detailOk env bad = false)
    (hok : ∀ i ∈ pre ++ post, detailOk env i = true)
    (hlen : (pre ++ bad :: post).length ≤ limit) :
    ∃ l, (fetch_all_vacancies env limit).result = .ok l ∧
      l.map (fun v => v.id) = (pre ++ post).map itemId ∧
      (fetch_all_vacancies env limit).warns = [itemId bad] := by
  have hlim : 1 ≤ limit := by
    simp only [List.length_append, List.length_cons] at hlen
    omega
  obtain ⟨acc', hpi, hids⟩ := processItems_char env limit (pre ++ bad :: post) []
    hgood hresp (by simpa using hlen)
  have hwarns : (pre ++ bad :: post).filter (fun i => !detailOk env i) = [bad] := by
    rw [List.filter_append, List.filter_cons]
    have h1 : pre.filter (fun i => !detailOk env i) = [] := by
      rw [List.filter_eq_nil_iff]
      intro a ha
      simp [hok a (List.mem_append.mpr (Or.inl ha))]
    have h2 : post.filter (fun i => !detailOk env i) = [] := by
      rw [List.filter_eq_nil_iff]
      intro a ha
      simp [hok a (List.mem_append.mpr (Or.inr ha))]
    simp [h1, h2, hbad]
  have hkept : (pre ++ bad :: post).filter (detailOk env) = pre ++ post := by
    rw [List.filter_append, List.filter_cons]
    have h1 : pre.filter (detailOk env) = pre :=
      List.filter_eq_self.mpr fun a ha => hok a (List.mem_append.mpr (Or.inl ha))
    have h2 : post.filter (detailOk env) = post :=
      List.filter_eq_self.mpr fun a ha => hok a (List.mem_append.mpr (Or.inr ha))
    simp [h1, h2, hbad]
  have hrun : fetch_all_vacancies env limit
      = ⟨[(0, min limit 100)], [itemId bad], .ok acc'⟩ := by
    rw [fetch_all_vacancies, hlist, fetchLoop_cons,
      if_neg (by simp only [List.length_nil]; omega : ¬ limit ≤ ([] : List Vacancy).length)]
    simp only [hitems, Option.getD_some]
    have htruthy : pyTruthy (.arr (pre ++ bad :: post)) = true := by
      simp [pyTruthy]
    simp only [htruthy, Bool.not_true, Bool.false_eq_true, if_false]
    simp only [pyIter]
    rw [hpi, hwarns]
    simp only [extractPages, hpages, pyGeInt]
    norm_num
  refine ⟨acc', ?_, ?_, ?_⟩
  · rw [hrun]
  · rw [hids, hkept]
    simp
  · rw [hrun]

/-- The witness environment of C7: three items, the middle detail
failing, the others succeeding. -/
def envDetailFail : Env :=
  { listing := [.ok (.obj [("items", .arr [.obj [("id", .str "1")],
                                           .obj [("id", .str "2")],
                                           .obj [("id", .str "3")]]),
                           ("pages", .int 1)])]
    detail := fun vid =>
      match vid with
      | .str s => if s = "2" then .error "boom"
                  else .ok (.obj [("name", .str "T"), ("description", .str "d")])
      | .null => .ok (.obj [])
      | .int _ => .ok (.obj [])
      | .arr _ => .ok (.obj [])
      | .obj _ => .ok (.obj []) }

/-- C7 (witness): the theorem at the concrete environment — the failed
item's id is warned and only that item is missing from the output. -/
theorem detail_failure_skips_item_witness :
    (fetch_all_vacancies envDetailFail 9).warns = [Json.str "2"] ∧
    (∃ l, (fetch_all_vacancies envDetailFail 9).result = .ok l ∧
      l.map (fun v => v.id) = [Json.str "1", Json.str "3"]) := by
  obtain ⟨l, h1, h2, h3⟩ := detail_failure_skips_item envDetailFail 9
    [.obj [("id", .str "1")]] [.obj [("id", .str "3")]] (.obj [("id", .str "2")])
    [("items", .arr [.obj [("id", .str "1")], .obj [("id", .str "2")],
                     .obj [("id", .str "3")]]), ("pages", .int 1)]
    rfl rfl rfl (by decide) (by decide) (by decide) (by decide) (by decide)
  refine ⟨by rw [h3]; rfl, l, h1, by rw [h2]; rfl⟩

/-! ## C9: the slug -/

/-- Characters of the collapsed string: either a separator, or an
alphanumeric character of the input. -/
lemma slugRun_mem : ∀ (l : List Char) (flag : Bool) (c : Char),
    c ∈ slugRun flag l → c = '-' ∨ (c ∈ l ∧ isSlugAlnum c = true) := by
  intro l
  induction l with
  | nil =>
    intro flag c h
    simp [slugRun] at h
  | cons a rest ih =>
    intro flag c h
    by_cases ha : isSlugAlnum a = true
    · rw [slugRun, if_pos ha] at h
      rcases List.mem_cons.mp h with rfl | h
      · exact Or.inr ⟨by simp, ha⟩
      · rcases ih false c h with h | ⟨h1, h2⟩
        · exact Or.inl h
        · exact Or.inr ⟨by simp [h1], h2⟩
    · cases flag with
      | false =>
        rw [slugRun, if_neg ha] at h
        simp only [Bool.false_eq_true, if_false] at h
        rcases List.mem_cons.mp h with rfl | h
        · exact Or.inl rfl
        · rcases ih true c h with h | ⟨h1, h2⟩
          · exact Or.inl h
          · exact Or.inr ⟨by simp [h1], h2⟩
      | true =>
        rw [slugRun, if_neg ha] at h
        simp only [if_true] at h
        rcases ih true c h with h | ⟨h1, h2⟩
        · exact Or.inl h
        · exact Or.inr ⟨by simp [h1], h2⟩

/-- The collapsed string never contains two adjacent separators, and in
skipping mode it never starts with a separator. -/
lemma slugRun_shape : ∀ l : List Char,
    (∀ u v, slugRun false l ≠ u ++ '-' :: '-' :: v) ∧
    (∀ u v, slugRun true l ≠ u ++ '-' :: '-' :: v) ∧
    ((slugRun true l).head? = some '-' → False) := by
  intro l
  induction l with
  | nil =>
    refine ⟨?_, ?_, ?_⟩ <;> simp [slugRun]
  | cons c rest ih =>
    obtain ⟨ihF, ihT, ihH⟩ := ih
    by_cases hc : isSlugAlnum c = true
    · have hcd : c ≠ '-' := by
        intro h
        rw [h] at hc
        simp [isSlugAlnum] at hc
      have hrw : ∀ flag, slugRun flag (c :: rest) = c :: slugRun false rest := by
        intro flag
        rw [slugRun, if_pos hc]
      refine ⟨?_, ?_, ?_⟩
      · intro u v heq
        rw [hrw] at heq
        cases u with
        | nil =>
          simp only [List.nil_append, List.cons.injEq] at heq
          exact hcd heq.1
        | cons a u' =>
          simp only [List.cons_append, List.cons.injEq] at heq
          exact ihF u' v heq.2
      · intro u v heq
        rw [hrw] at heq
        cases u with
        | nil =>
          simp only [List.nil_append, List.cons.injEq] at heq
          exact hcd heq.1
        | cons a u' =>
          simp only [List.cons_append, List.cons.injEq] at heq
          exact ihF u' v heq.2
      · rw [hrw]
        intro h
        simp only [List.head?_cons, Option.some.injEq] at h
        exact hcd h
    · refine ⟨?_, ?_, ?_⟩
      · intro u v heq
        rw [slugRun, if_neg hc] at heq
        simp only [Bool.false_eq_true, if_false] at heq
        cases u with
        | nil =>
          simp only [List.nil_append, List.cons.injEq] at heq
          exact ihH (by rw [heq.2]; rfl)
        | cons a u' =>
          simp only [List.cons_append, List.cons.injEq] at heq
          exact ihT u' v heq.2
      · intro u v heq
        rw [slugRun, if_neg hc] at heq
        simp only [if_true] at heq
        exact ihT u v heq
      · rw [slugRun, if_neg hc]
        simp only [if_true]
        exact ihH

/-- C9: for every query, the slug contains only lowercase `[a-z0-9]`
characters and separators, contains no uppercase ASCII letter, never
has two adjacent separators (every non-alphanumeric run became one
separator), and has no leading or trailing separator. -/
theorem slug_characterization (q : String) :
    (∀ c ∈ (slug q).data, isSlugAlnum c = true ∨ c = '-') ∧
    (∀ c ∈ (slug q).data, ¬ (65 ≤ c.toNat ∧ c.toNat ≤ 90)) ∧
    (∀ u v, (slug q).data ≠ u ++ '-' :: '-' :: v) ∧
    (∀ c, (slug q).data.head? = some c → c ≠ '-') ∧
    (∀ c, (slug q).data.getLast? = some c → c ≠ '-') := by
  have hdata : (slug q).data
      = stripDash (slugRun false (q.data.map lowerAscii)) := rfl
  have hmem : ∀ c ∈ (slug q).data, isSlugAlnum c = true ∨ c = '-' := by
    intro c hc
    rw [hdata] at hc
    have := mem_of_mem_dropEnds _ _ c hc
    rcases slugRun_mem _ false c this with h | ⟨-, h⟩
    · exact Or.inr h
    · exact Or.inl h
  refine ⟨hmem, ?_, ?_, ?_, ?_⟩
  · intro c hc h
    rcases hmem c hc with hal | hd
    · simp only [isSlugAlnum, Bool.or_eq_true, Bool.and_eq_true,
        decide_eq_true_eq] at hal
      omega
    · rw [hd] at h
      exact absurd h (by decide)
  · intro u v heq
    rw [hdata, stripDash] at heq
    obtain ⟨u0, v0, hsplit⟩ := dropEnds_infix (fun c => c = '-')
      (slugRun false (q.data.map lowerAscii))
    rw [heq] at hsplit
    refine (slugRun_shape (q.data.map lowerAscii)).1 (u0 ++ u) (v ++ v0) ?_
    rw [hsplit]
    simp
  · intro c hc
    rw [hdata, stripDash] at hc
    have := head_dropEnds_false _ _ c hc
    simpa using this
  · intro c hc
    rw [hdata, stripDash] at hc
    have := getLast_dropEnds_false _ _ c hc
    simpa using this

/-- C9 (witness): the theorem at a concrete query. -/
theorem slug_characterization_witness :
    (isSlugAlnum 'c' = true ∨ 'c' = '-') ∧
    ('c' ≠ '-') ∧
    slug "  C++ / C# Dev!!" = "c-c-dev" := by
  refine ⟨?_, ?_, by rfl⟩
  · exact (slug_characterization "  C++ / C# Dev!!").1 'c' (by decide)
  · exact (slug_characterization "  C++ / C# Dev!!").2.2.2.1 'c' (by decide)

/-! ## C5 and C6: the newline collapse

`NlGapFree` is the shape of a collapsed text: between any two newlines
separated only by whitespace there is nothing at all.  This rules out
both three newlines in a row and two newlines with whitespace between
them, so a run of two or more newline-equivalents can only survive as
exactly `"\n\n"`. -/

/-- A buffer of non-newline whitespace. -/
def SpNoNl (b : List Char) : Prop := ∀ c ∈ b, isPySpace c = true ∧ c ≠ '\n'

/-- No two newlines of the string enclose a nonempty all-whitespace
gap. -/
def NlGapFree (l : List Char) : Prop :=
  ∀ u w v, l = u ++ '\n' :: (w ++ '\n' :: v) →
    (∀ c ∈ w, isPySpace c = true) → w = []

/-- No newline is reachable from the start through whitespace only. -/
def NoLeadNl (t : List Char) : Prop :=
  ∀ p v, t = p ++ '\n' :: v → (∀ c ∈ p, isPySpace c = true) → False

lemma nlGapFree_of_count (l : List Char) (h : l.count '\n' ≤ 1) :
    NlGapFree l := by
  intro u w v heq _
  exfalso
  rw [heq] at h
  simp [List.count_append, List.count_cons] at h
  omega

lemma noLeadNl_of_not_mem (t : List Char) (h : '\n' ∉ t) : NoLeadNl t := by
  intro p v heq _
  apply h
  rw [heq]
  simp

lemma nlGapFree_tail (c : Char) (t : List Char) (h : NlGapFree (c :: t)) :
    NlGapFree t := by
  intro u w v heq hw
  exact h (c :: u) w v (by rw [heq]; rfl) hw

lemma nlGapFree_suffix : ∀ (x t : List Char), NlGapFree (x ++ t) → NlGapFree t := by
  intro x
  induction x with
  | nil => intro t h; exact h
  | cons c x ih => intro t h; exact ih t (nlGapFree_tail c _ h)

/-- A newline preceded by non-newline whitespace and a non-whitespace
character cannot occur where an all-whitespace prefix is required. -/
lemma spRun_no_nl : ∀ (B w v : List Char) (c : Char) (t : List Char),
    SpNoNl B → isPySpace c = false → (∀ x ∈ w, isPySpace x = true) →
    w ++ '\n' :: v = B ++ c :: t → False := by
  intro B
  induction B with
  | nil =>
    intro w v c t _ hc hw heq
    cases w with
    | nil =>
      simp only [List.nil_append, List.cons.injEq] at heq
      rw [← heq.1] at hc
      simp [isPySpace] at hc
    | cons a w' =>
      simp only [List.nil_append, List.cons_append, List.cons.injEq] at heq
      have ha := hw a (by simp)
      rw [heq.1, hc] at ha
      exact absurd ha (by simp)
  | cons b B' ih =>
    intro w v c t hB hc hw heq
    cases w with
    | nil =>
      simp only [List.nil_append, List.cons_append, List.cons.injEq] at heq
      exact (hB b (by simp)).2 heq.1.symm
    | cons a w' =>
      simp only [List.cons_append, List.cons.injEq] at heq
      exact ih w' v c t (fun x hx => hB x (by simp [hx])) hc
        (fun x hx => hw x (by simp [hx])) heq.2

/-- Splitting a list at its first newline, when it starts with a
newline-free block followed by a non-newline character. -/
lemma split_first_nl : ∀ (B u X : List Char) (c : Char) (t : List Char),
    (∀ x ∈ B, x ≠ '\n') → c ≠ '\n' →
    u ++ '\n' :: X = B ++ c :: t →
    ∃ u', u = B ++ c :: u' ∧ t = u' ++ '\n' :: X := by
  intro B
  induction B with
  | nil =>
    intro u X c t _ hc heq
    cases u with
    | nil =>
      simp only [List.nil_append, List.cons.injEq] at heq
      exact absurd heq.1.symm hc
    | cons a u' =>
      simp only [List.cons_append, List.nil_append, List.cons.injEq] at heq
      exact ⟨u', by simp [heq.1], heq.2.symm⟩
  | cons b B' ih =>
    intro u X c t hB hc heq
    cases u with
    | nil =>
      simp only [List.nil_append, List.cons_append, List.cons.injEq] at heq
      exact absurd heq.1.symm (hB b (by simp))
    | cons a u'' =>
      simp only [List.cons_append, List.cons.injEq] at heq
      obtain ⟨u', h1, h2⟩ := ih u'' X c t (fun x hx => hB x (by simp [hx])) hc heq.2
      exact ⟨u', by simp [heq.1, h1], h2⟩

/-- Prepending a non-newline character preserves gap-freeness. -/
lemma nlGapFree_cons (c : Char) (t : List Char) (hc : c ≠ '\n')
    (ht : NlGapFree t) : NlGapFree (c :: t) := by
  intro u w v heq hw
  cases u with
  | nil =>
    simp only [List.nil_append, List.cons.injEq] at heq
    exact absurd heq.1 hc
  | cons a u' =>
    simp only [List.cons_append, List.cons.injEq] at heq
    exact ht u' w v heq.2 hw

/-- Prepending the replaced `"\n\n"` preserves gap-freeness when the
remainder has no newline behind leading whitespace. -/
lemma nlGapFree_nlnl (t : List Char) (ht : NlGapFree t) (hl : NoLeadNl t) :
    NlGapFree ('\n' :: '\n' :: t) := by
  intro u w v heq hw
  cases u with
  | nil =>
    simp only [List.nil_append, List.cons.injEq] at heq
    cases w with
    | nil => rfl
    | cons a w' =>
      simp only [List.cons_append, List.cons.injEq] at heq
      exact absurd (hl w' v heq.2.2 fun x hx => hw x (by simp [hx])) (by simp)
  | cons a u' =>
    simp only [List.cons_append, List.cons.injEq] at heq
    cases u' with
    | nil =>
      simp only [List.nil_append, List.cons.injEq] at heq
      exact absurd (hl w v heq.2.2 hw) (by simp)
    | cons a' u'' =>
      simp only [List.cons_append, List.cons.injEq] at heq
      exact ht u'' w v heq.2.2 hw

/-- Prepending a newline, a whitespace buffer and a non-whitespace
character preserves gap-freeness. -/
lemma nlGapFree_nl_block (B : List Char) (c : Char) (t : List Char)
    (hB : SpNoNl B) (hc : isPySpace c = false) (ht : NlGapFree t) :
    NlGapFree ('\n' :: (B ++ c :: t)) := by
  intro u w v heq hw
  cases u with
  | nil =>
    simp only [List.nil_append, List.cons.injEq] at heq
    exact absurd (spRun_no_nl B w v c t hB hc hw heq.2.symm) (by simp)
  | cons a u' =>
    simp only [List.cons_append, List.cons.injEq] at heq
    obtain ⟨u'', -, h2⟩ := split_first_nl B u' (w ++ '\n' :: v) c t
      (fun x hx => (hB x hx).2) (by intro h; rw [h] at hc; simp [isPySpace] at hc)
      heq.2.symm
    exact ht u'' w v h2 hw

/-- Prepending a whitespace buffer and a non-whitespace character
preserves gap-freeness. -/
lemma nlGapFree_block (B : List Char) (c : Char) (t : List Char)
    (hB : SpNoNl B) (hc : isPySpace c = false) (ht : NlGapFree t) :
    NlGapFree (B ++ c :: t) := by
  intro u w v heq hw
  obtain ⟨u'', -, h2⟩ := split_first_nl B u (w ++ '\n' :: v) c t
    (fun x hx => (hB x hx).2) (by intro h; rw [h] at hc; simp [isPySpace] at hc)
    heq.symm
  exact ht u'' w v h2 hw

/-- In match-absorbing mode the scanner never emits a newline behind
leading whitespace. -/
lemma afterM_noLeadNl : ∀ (l buf : List Char), SpNoNl buf →
    NoLeadNl (nlRun (.afterM buf) l) := by
  intro l
  induction l with
  | nil =>
    intro buf hbuf
    refine noLeadNl_of_not_mem _ fun h => ?_
    rw [nlRun, List.mem_reverse] at h
    exact (hbuf '\n' h).2 rfl
  | cons c rest ih =>
    intro buf hbuf
    by_cases hc : c = '\n'
    · subst hc
      rw [nlRun, if_pos rfl]
      exact ih [] (by simp [SpNoNl])
    · by_cases hsp : isPySpace c = true
      · rw [nlRun, if_neg hc, if_pos hsp]
        exact ih (c :: buf) fun x hx => by
          rcases List.mem_cons.mp hx with rfl | hx
          · exact ⟨hsp, hc⟩
          · exact hbuf x hx
      · rw [nlRun, if_neg hc, if_neg hsp]
        intro p v heq hp
        exact spRun_no_nl buf.reverse p v c (nlRun .scan rest)
          (fun x hx => hbuf x (List.mem_reverse.mp hx))
          (by simpa using hsp) hp heq.symm

/-- Every output of the newline-collapsing scanner is gap-free, in all
three modes (with whitespace buffers). -/
lemma nlRun_gapFree : ∀ l : List Char,
    NlGapFree (nlRun .scan l) ∧
    (∀ b, SpNoNl b → NlGapFree (nlRun (.after1 b) l)) ∧
    (∀ b, SpNoNl b → NlGapFree (nlRun (.afterM b) l)) := by
  intro l
  induction l with
  | nil =>
    refine ⟨?_, ?_, ?_⟩
    · exact nlGapFree_of_count _ (by simp [nlRun])
    · intro b hb
      refine nlGapFree_of_count _ ?_
      rw [nlRun]
      simp only [List.count_cons]
      have : b.reverse.count '\n' = 0 :=
        List.count_eq_zero.mpr fun h => (hb '\n' (List.mem_reverse.mp h)).2 rfl
      simp [this]
    · intro b hb
      refine nlGapFree_of_count _ ?_
      rw [nlRun]
      have : b.reverse.count '\n' = 0 :=
        List.count_eq_zero.mpr fun h => (hb '\n' (List.mem_reverse.mp h)).2 rfl
      simp [this]
  | cons c rest ih =>
    obtain ⟨ihS, ihA, ihM⟩ := ih
    by_cases hc : c = '\n'
    · subst hc
      refine ⟨?_, ?_, ?_⟩
      · rw [nlRun, if_pos rfl]
        exact ihA [] (by simp [SpNoNl])
      · intro b hb
        rw [nlRun, if_pos rfl]
        exact nlGapFree_nlnl _ (ihM [] (by simp [SpNoNl]))
          (afterM_noLeadNl rest [] (by simp [SpNoNl]))
      · intro b hb
        rw [nlRun, if_pos rfl]
        exact ihM [] (by simp [SpNoNl])
    · by_cases hsp : isPySpace c = true
      · refine ⟨?_, ?_, ?_⟩
        · rw [nlRun, if_neg hc]
          exact nlGapFree_cons c _ hc ihS
        · intro b hb
          rw [nlRun, if_neg hc, if_pos hsp]
          exact ihA (c :: b) fun x hx => by
            rcases List.mem_cons.mp hx with rfl | hx
            · exact ⟨hsp, hc⟩
            · exact hb x hx
        · intro b hb
          rw [nlRun, if_neg hc, if_pos hsp]
          exact ihM (c :: b) fun x hx => by
            rcases List.mem_cons.mp hx with rfl | hx
            · exact ⟨hsp, hc⟩
            · exact hb x hx
      · have hsp' : isPySpace c = false := by simpa using hsp
        refine ⟨?_, ?_, ?_⟩
        · rw [nlRun, if_neg hc]
          exact nlGapFree_cons c _ hc ihS
        · intro b hb
          rw [nlRun, if_neg hc, if_neg hsp]
          exact nlGapFree_nl_block b.reverse c _
            (fun x hx => hb x (List.mem_reverse.mp hx)) hsp' ihS
        · intro b hb
          rw [nlRun, if_neg hc, if_neg hsp]
          exact nlGapFree_block b.reverse c _
            (fun x hx => hb x (List.mem_reverse.mp hx)) hsp' ihS

/-- The collapse of `re.sub(r"\n\s*\n", "\n\n", ·)` leaves no newline
run longer than the replaced pair, and no whitespace between two
newlines. -/
lemma subNl_gapFree (l : List Char) : NlGapFree (subNl l) :=
  (nlRun_gapFree l).1

/-- On gap-free input the scanner is the identity, in all three modes
(relative to the context the mode stands for). -/
lemma nlRun_fix : ∀ (n : Nat) (r : List Char), r.length ≤ n →
    (NlGapFree r → nlRun .scan r = r) ∧
    (∀ b, SpNoNl b → NlGapFree ('\n' :: (b.reverse ++ r)) →
      nlRun (.after1 b) r = '\n' :: (b.reverse ++ r)) ∧
    (∀ b, SpNoNl b → NlGapFree ('\n' :: '\n' :: (b.reverse ++ r)) →
      nlRun (.afterM b) r = b.reverse ++ r) := by
  intro n
  induction n with
  | zero =>
    intro r hr
    have : r = [] := List.length_eq_zero.mp (Nat.le_zero.mp hr)
    subst this
    refine ⟨fun _ => rfl, fun b _ _ => by rw [nlRun]; simp, fun b _ _ => by rw [nlRun]; simp⟩
  | succ n ihn =>
    intro r hr
    cases r with
    | nil =>
      refine ⟨fun _ => rfl, fun b _ _ => by rw [nlRun]; simp, fun b _ _ => by rw [nlRun]; simp⟩
    | cons c rest =>
      have hrest : rest.length ≤ n := by
        simp only [List.length_cons] at hr
        omega
      obtain ⟨ihS, ihA, ihM⟩ := ihn rest hrest
      refine ⟨?_, ?_, ?_⟩
      · intro hg
        by_cases hc : c = '\n'
        · subst hc
          rw [nlRun, if_pos rfl]
          have := ihA [] (by simp [SpNoNl]) (by simpa using hg)
          rw [this]
          simp
        · rw [nlRun, if_neg hc]
          rw [ihS (nlGapFree_tail c rest hg)]
      · intro b hb hg
        by_cases hc : c = '\n'
        · subst hc
          have hbnil : b.reverse = [] := by
            refine hg [] b.reverse rest (by simp) fun x hx => ?_
            exact (hb x (List.mem_reverse.mp hx)).1
          rw [nlRun, if_pos rfl]
          rw [hbnil] at hg ⊢
          simp only [List.nil_append] at hg ⊢
          rw [ihM [] (by simp [SpNoNl]) (by simpa using hg)]
          simp
        · by_cases hsp : isPySpace c = true
          · rw [nlRun, if_neg hc, if_pos hsp]
            have hb' : SpNoNl (c :: b) := fun x hx => by
              rcases List.mem_cons.mp hx with rfl | hx
              · exact ⟨hsp, hc⟩
              · exact hb x hx
            have harr : (c :: b).reverse ++ rest = b.reverse ++ c :: rest := by
              simp
            rw [ihA (c :: b) hb' (by rw [harr]; exact hg), harr]
          · rw [nlRun, if_neg hc, if_neg hsp]
            have : NlGapFree rest := by
              refine nlGapFree_suffix ('\n' :: b.reverse ++ [c]) rest ?_
              simpa using hg
            rw [ihS this]
      · intro b hb hg
        by_cases hc : c = '\n'
        · subst hc
          exfalso
          have := hg [] ('\n' :: b.reverse) rest (by simp) fun x hx => by
            rcases List.mem_cons.mp hx with rfl | hx
            · rfl
            · exact (hb x (List.mem_reverse.mp hx)).1
          simp at this
        · by_cases hsp : isPySpace c = true
          · rw [nlRun, if_neg hc, if_pos hsp]
            have hb' : SpNoNl (c :: b) := fun x hx => by
              rcases List.mem_cons.mp hx with rfl | hx
              · exact ⟨hsp, hc⟩
              · exact hb x hx
            have harr : (c :: b).reverse ++ rest = b.reverse ++ c :: rest := by
              simp
            rw [ihM (c :: b) hb' (by rw [harr]; exact hg), harr]
          · rw [nlRun, if_neg hc, if_neg hsp]
            have : NlGapFree rest := by
              refine nlGapFree_suffix ('\n' :: '\n' :: b.reverse ++ [c]) rest ?_
              simpa using hg
            rw [ihS this]

/-- `re.sub(r"\n\s*\n", "\n\n", ·)` fixes every gap-free string. -/
lemma subNl_fix (r : List Char) (h : NlGapFree r) : subNl r = r :=
  (nlRun_fix r.length r le_rfl).1 h

/-- Gap-freeness passes to prefixes. -/
lemma nlGapFree_take (t x : List Char) (h : NlGapFree (t ++ x)) :
    NlGapFree t := by
  intro u w v heq hw
  refine h u w (v ++ x) ?_ hw
  rw [heq]
  simp

/-- Gap-freeness passes to contiguous slices, in particular to the
stripped string. -/
lemma nlGapFree_dropEnds (p : Char → Bool) (l : List Char)
    (h : NlGapFree l) : NlGapFree (dropEnds p l) := by
  obtain ⟨u, v, hsplit⟩ := dropEnds_infix p l
  rw [hsplit] at h
  exact nlGapFree_take _ v (nlGapFree_suffix u _ (by simpa using h))

/-- Unfolding equation of the tag stripper in text mode. -/
lemma tagRun_text_cons (c : Char) (rest : List Char) :
    tagRun .text (c :: rest) =
      if c = '<' then
        match rest with
        | [] => ['<']
        | d :: _ => if tagStart d then tagRun (.tag []) rest
                    else '<' :: tagRun .text rest
      else c :: tagRun .text rest := rfl

/-- Tag stripping is the identity on text without `<`. -/
lemma tagRun_text_id : ∀ l : List Char, '<' ∉ l → tagRun .text l = l := by
  intro l
  induction l with
  | nil => intro _; rfl
  | cons c rest ih =>
    intro h
    have hc : c ≠ '<' := fun hh => h (by simp [hh])
    rw [tagRun_text_cons, if_neg hc, ih fun hh => h (by simp [hh])]

/-- Absorbing a run of newlines before a `'b'` yields just the
`'b'`. -/
lemma afterM_replicate_b : ∀ k : Nat,
    nlRun (.afterM []) (List.replicate k '\n' ++ ['b']) = ['b'] := by
  intro k
  induction k with
  | zero =>
    show nlRun (.afterM []) ('b' :: []) = ['b']
    rw [nlRun, if_neg (by decide), if_neg (by decide)]
    rfl
  | succ k ih =>
    rw [List.replicate_succ, List.cons_append, nlRun, if_pos rfl]
    exact ih

/-- C5: in the output of `clean_html`, any run of two or more
consecutive newlines (possibly interspersed with whitespace) collapses
to exactly two newlines — concretely, `"a"` and `"b"` around any run of
`n + 2` newlines normalize to `"a\n\nb"`; generally, the output never
contains two newlines enclosing a nonempty all-whitespace gap (so
neither three newlines in a row nor whitespace between two newlines
survives); and the output is stripped of leading and trailing
whitespace.  In particular `clean_html "a\n\n\n\nb" = "a\n\nb"`. -/
theorem clean_html_collapses_newlines :
    clean_html (some "a\n\n\n\nb") = "a\n\nb" ∧
    (∀ n : Nat,
      clean_html (some ("a" ++ String.mk (List.replicate (n + 2) '\n') ++ "b"))
        = "a\n\nb") ∧
    (∀ x : Option String, NlGapFree (clean_html x).data) ∧
    (∀ x : Option String, StrippedStr (clean_html x)) := by
  have hfam : ∀ n : Nat,
      clean_html (some ("a" ++ String.mk (List.replicate (n + 2) '\n') ++ "b"))
        = "a\n\nb" := by
    intro n
    have hdata : ("a" ++ String.mk (List.replicate (n + 2) '\n') ++ "b").data
        = 'a' :: (List.replicate (n + 2) '\n' ++ ['b']) := rfl
    have hne : ("a" ++ String.mk (List.replicate (n + 2) '\n') ++ "b") ≠ "" := by
      intro h
      have := congrArg String.data h
      rw [hdata] at this
      simp at this
    rw [clean_html]
    rw [if_neg hne, hdata]
    have hlt : '<' ∉ 'a' :: (List.replicate (n + 2) '\n' ++ ['b']) := by
      intro h
      rcases List.mem_cons.mp h with h | h
      · exact absurd h (by decide)
      rcases List.mem_append.mp h with h | h
      · exact absurd (List.mem_replicate.mp h).2 (by decide)
      · exact absurd h (by decide)
    rw [tagRun_text_id _ hlt]
    have hsub : subNl ('a' :: (List.replicate (n + 2) '\n' ++ ['b']))
        = ['a', '\n', '\n', 'b'] := by
      rw [subNl, nlRun, if_neg (by decide)]
      rw [List.replicate_succ, List.replicate_succ, List.cons_append,
        List.cons_append, nlRun, if_pos rfl, nlRun, if_pos rfl,
        afterM_replicate_b n]
    rw [hsub]
    rfl
  refine ⟨hfam 2, hfam, ?_, clean_html_strippedStr⟩
  intro x
  cases x with
  | none => exact nlGapFree_of_count _ (by simp [clean_html])
  | some s =>
    by_cases hs : s = ""
    · subst hs
      exact nlGapFree_of_count _ (by simp [clean_html])
    · rw [clean_html, if_neg hs]
      exact nlGapFree_dropEnds _ _ (subNl_gapFree _)

/-- C5 (witness): the concrete collapse instance from the theorem. -/
theorem clean_html_collapses_newlines_witness :
    clean_html (some "a\n\n\n\nb") = "a\n\nb" :=
  clean_html_collapses_newlines.1

/-- The whitespace buffer carried by a scanner mode. -/
def modeBuf : NlMode → List Char
  | .scan => []
  | .after1 b => b
  | .afterM b => b

/-- Every character the scanner emits is a newline, an input character,
or a buffered character. -/
lemma nlRun_mem : ∀ (l : List Char) (m : NlMode) (c : Char),
    c ∈ nlRun m l → c = '\n' ∨ c ∈ l ∨ c ∈ modeBuf m := by
  intro l
  induction l with
  | nil =>
    intro m c h
    cases m with
    | scan => rw [nlRun] at h; simp at h
    | after1 b =>
      rw [nlRun] at h
      rcases List.mem_cons.mp h with rfl | h
      · exact Or.inl rfl
      · exact Or.inr (Or.inr (List.mem_reverse.mp h))
    | afterM b =>
      rw [nlRun] at h
      exact Or.inr (Or.inr (List.mem_reverse.mp h))
  | cons a rest ih =>
    intro m c h
    by_cases ha : a = '\n'
    · subst ha
      cases m with
      | scan =>
        rw [nlRun, if_pos rfl] at h
        rcases ih (.after1 []) c h with h | h | h
        · exact Or.inl h
        · exact Or.inr (Or.inl (by simp [h]))
        · simp [modeBuf] at h
      | after1 b =>
        rw [nlRun, if_pos rfl] at h
        rcases List.mem_cons.mp h with rfl | h
        · exact Or.inl rfl
        rcases List.mem_cons.mp h with rfl | h
        · exact Or.inl rfl
        rcases ih (.afterM []) c h with h | h | h
        · exact Or.inl h
        · exact Or.inr (Or.inl (by simp [h]))
        · simp [modeBuf] at h
      | afterM b =>
        rw [nlRun, if_pos rfl] at h
        rcases ih (.afterM []) c h with h | h | h
        · exact Or.inl h
        · exact Or.inr (Or.inl (by simp [h]))
        · simp [modeBuf] at h
    · by_cases hsp : isPySpace a = true
      · cases m with
        | scan =>
          rw [nlRun, if_neg ha] at h
          rcases List.mem_cons.mp h with rfl | h
          · exact Or.inr (Or.inl (by simp))
          rcases ih .scan c h with h | h | h
          · exact Or.inl h
          · exact Or.inr (Or.inl (by simp [h]))
          · simp [modeBuf] at h
        | after1 b =>
          rw [nlRun, if_neg ha, if_pos hsp] at h
          rcases ih (.after1 (a :: b)) c h with h | h | h
          · exact Or.inl h
          · exact Or.inr (Or.inl (by simp [h]))
          · rcases List.mem_cons.mp h with rfl | h
            · exact Or.inr (Or.inl (by simp))
            · exact Or.inr (Or.inr h)
        | afterM b =>
          rw [nlRun, if_neg ha, if_pos hsp] at h
          rcases ih (.afterM (a :: b)) c h with h | h | h
          · exact Or.inl h
          · exact Or.inr (Or.inl (by simp [h]))
          · rcases List.mem_cons.mp h with rfl | h
            · exact Or.inr (Or.inl (by simp))
            · exact Or.inr (Or.inr h)
      · cases m with
        | scan =>
          rw [nlRun, if_neg ha] at h
          rcases List.mem_cons.mp h with rfl | h
          · exact Or.inr (Or.inl (by simp))
          rcases ih .scan c h with h | h | h
          · exact Or.inl h
          · exact Or.inr (Or.inl (by simp [h]))
          · simp [modeBuf] at h
        | after1 b =>
          rw [nlRun, if_neg ha, if_neg hsp] at h
          rcases List.mem_cons.mp h with rfl | h
          · exact Or.inl rfl
          rcases List.mem_append.mp h with h | h
          · exact Or.inr (Or.inr (List.mem_reverse.mp h))
          rcases List.mem_cons.mp h with rfl | h
          · exact Or.inr (Or.inl (by simp))
          rcases ih .scan c h with h | h | h
          · exact Or.inl h
          · exact Or.inr (Or.inl (by simp [h]))
          · simp [modeBuf] at h
        | afterM b =>
          rw [nlRun, if_neg ha, if_neg hsp] at h
          rcases List.mem_append.mp h with h | h
          · exact Or.inr (Or.inr (List.mem_reverse.mp h))
          rcases List.mem_cons.mp h with rfl | h
          · exact Or.inr (Or.inl (by simp))
          rcases ih .scan c h with h | h | h
          · exact Or.inl h
          · exact Or.inr (Or.inl (by simp [h]))
          · simp [modeBuf] at h

/-- Every character of the collapsed text is a newline or an input
character. -/
lemma subNl_mem (l : List Char) (c : Char) (h : c ∈ subNl l) :
    c = '\n' ∨ c ∈ l := by
  rcases nlRun_mem l .scan c h with h | h | h
  · exact Or.inl h
  · exact Or.inr h
  · simp [modeBuf] at h

/-- A plain string: no tag opener and no entity starter, so the
modelled parser treats every character as text. -/
def NoMarkup (s : String) : Prop := '<' ∉ s.data ∧ '&' ∉ s.data

/-- C6: `clean_html` is idempotent on plain text: for every string with
no markup, cleaning twice equals cleaning once. -/
theorem clean_html_idempotent_plain (x : String) (hx : NoMarkup x) :
    clean_html (some (clean_html (some x))) = clean_html (some x) := by
  by_cases hxe : x = ""
  · subst hxe
    rfl
  · have hy : clean_html (some x) = String.mk (pyStrip (subNl x.data)) := by
      rw [clean_html, if_neg hxe, tagRun_text_id _ hx.1]
    by_cases hye : clean_html (some x) = ""
    · rw [hye]
      rfl
    · rw [clean_html, if_neg hye]
      have hyd : (clean_html (some x)).data = pyStrip (subNl x.data) := by
        rw [hy]
      have hlt : '<' ∉ (clean_html (some x)).data := by
        rw [hyd]
        intro h
        rcases subNl_mem _ _ (mem_of_mem_dropEnds _ _ _ h) with h3 | h3
        · exact absurd h3 (by decide)
        · exact hx.1 h3
      rw [tagRun_text_id _ hlt, hyd]
      have hfix : subNl (pyStrip (subNl x.data)) = pyStrip (subNl x.data) :=
        subNl_fix _ (nlGapFree_dropEnds isPySpace _ (subNl_gapFree _))
      rw [hfix]
      have hidem : pyStrip (pyStrip (subNl x.data)) = pyStrip (subNl x.data) :=
        dropEnds_idem _ _
      rw [hidem, hy]

/-- C6 (witness): the theorem at a concrete plain string (whose single
cleaning is not a fixed point of the identity check: it has outer
whitespace and a whitespace-interspersed newline run). -/
theorem clean_html_idempotent_plain_witness :
    clean_html (some (clean_html (some " hi\n \n\nthere "))) =
      clean_html (some " hi\n \n\nthere ") :=
  clean_html_idempotent_plain " hi\n \n\nthere " (by exact ⟨by decide, by decide⟩)
